import Mathlib

/-!
Verification of `scripts/sync-tfvars-to-env.py`: a terraform-variables to
environment-file synchronizer.  The Python source is shallowly embedded here:
text is `List Char`, files are optional text contents, Python dicts are
insertion-ordered association lists, and every function of the script
(`parse_tfvars`, `parse_value`, `format_env_value`, `read_env_file`,
`write_env_file`, `sync_tfvars_to_env`) is translated into an executable
Lean definition.  The recursive value parser and the line scanner are
totalized with an explicit fuel argument that provably exceeds the
recursion depth; everything reduces in the kernel, so concrete runs can be
settled by `rfl`/`decide`.
-/

set_option maxRecDepth 10000

namespace TfSync

/-- Text is modelled as a list of characters. -/
abbrev Str := List Char

/-- Convert a Lean string literal to the character-list model. -/
def strL (s : String) : Str := s.data

/-! ### Python primitive string operations -/

/-- Whitespace stripped by Python `str.strip()` (ASCII subset; the rarely
used Unicode space characters are outside the modelled character set). -/
def pyWs (c : Char) : Bool :=
  c = ' ' || c = '\t' || c = '\n' || c = '\r' || c = '\x0b' || c = '\x0c'

/-- Drop trailing whitespace, as the second half of Python `str.strip()`. -/
def dropTrail (l : Str) : Str := (l.reverse.dropWhile pyWs).reverse

/-- Python `str.strip()`. -/
def pyStrip (l : Str) : Str := dropTrail (l.dropWhile pyWs)

/-- Python `s.startswith(c)` for a single-character pattern. -/
def startsWithC (c : Char) (l : Str) : Bool := l.head? = some c

/-- Python `s.endswith(c)` for a single-character pattern. -/
def endsWithC (c : Char) (l : Str) : Bool := l.getLast? = some c

/-- Python `s.partition(sep)[0/2]` for a one-character separator: the text
before the first occurrence and the text after it (whole text and empty
rest when the separator is absent; all call sites guard on membership). -/
def splitFirst (c : Char) : Str → Str × Str
  | [] => ([], [])
  | a :: as =>
    if a = c then ([], as)
    else
      let p := splitFirst c as
      (a :: p.1, p.2)

/-- Python `s.split(sep)` for a one-character separator. -/
def splitOnChar (c : Char) : Str → List Str
  | [] => [[]]
  | a :: as =>
    if a = c then [] :: splitOnChar c as
    else
      match splitOnChar c as with
      | [] => [[a]]
      | h :: t => (a :: h) :: t

/-- Python `str.lower()` (ASCII). -/
def lowerStr (l : Str) : Str := l.map Char.toLower

/-- Python `str.upper()` (ASCII). -/
def upperStr (l : Str) : Str := l.map Char.toUpper

/-! ### Python number parsing and printing -/

/-- Decimal digits to the number they denote. -/
def digitsToNat (l : Str) : Nat := l.foldl (fun n c => n * 10 + (c.toNat - 48)) 0

/-- Leading-sign handling shared by the numeric parsers. -/
def signSplit (t : Str) : Int × Str :=
  match t with
  | [] => (1, [])
  | c :: r => if c = '+' then (1, r) else if c = '-' then (-1, r) else (1, c :: r)

/-- Python `int(s)`: optional surrounding whitespace, an optional sign and a
nonempty run of decimal digits; `none` models `ValueError`.  (Digit-group
underscores and non-ASCII digits are outside the modelled subset.) -/
def pyIntParse (s : Str) : Option Int :=
  let t := pyStrip s
  let p := signSplit t
  if p.2 ≠ [] ∧ p.2.all Char.isDigit then some (p.1 * digitsToNat p.2) else none

/-- Split at the first character satisfying `p`; `none` when absent. -/
def breakAt (p : Char → Bool) : Str → Str × Option Str
  | [] => ([], none)
  | a :: as =>
    if p a then ([], some as)
    else
      let q := breakAt p as
      (a :: q.1, q.2)

/-- Python `float(s)`, with the exact decimal value kept as a scaled integer
`(m, e)` denoting `m * 10 ^ e`: optional whitespace and sign, a mantissa of
digits with at most one dot and at least one digit, and an optional
`e`/`E` exponent with optional sign and nonempty digits.  `none` models
`ValueError`.  (IEEE-754 rounding, `inf`/`nan` and digit underscores are
outside the modelled subset; no claim depends on them.) -/
def pyFloatParse (s : Str) : Option (Int × Int) :=
  let t := pyStrip s
  let sp := signSplit t
  let me := breakAt (fun c => c = 'e' || c = 'E') sp.2
  let ipfp := breakAt (fun c => c = '.') me.1
  let ip := ipfp.1
  let fp := (ipfp.2).getD []
  let expOk : Option Int :=
    match me.2 with
    | none => some 0
    | some ex =>
      let ep := signSplit ex
      if ep.2 ≠ [] ∧ ep.2.all Char.isDigit then some (ep.1 * digitsToNat ep.2) else none
  if ip.all Char.isDigit ∧ fp.all Char.isDigit ∧ (ip ≠ [] ∨ fp ≠ []) then
    match expOk with
    | some ev => some (sp.1 * digitsToNat (ip ++ fp), ev - fp.length)
    | none => none
  else none

/-- Decimal digits of a natural number (fuelled; the fuel `n + 1` always
suffices since `n / 10` shrinks). -/
def natDigitsGo : Nat → Nat → Str
  | 0, _ => []
  | f + 1, n => if n < 10 then [Char.ofNat (48 + n)] else natDigitsGo f (n / 10) ++ [Char.ofNat (48 + n % 10)]

/-- Python `str(n)` for a natural number. -/
def natRepr (n : Nat) : Str := natDigitsGo (n + 1) n

/-- Python `str(n)` for an integer. -/
def intRepr (i : Int) : Str := if i < 0 then '-' :: natRepr i.natAbs else natRepr i.toNat

/-- Remove trailing decimal zeros from a scaled integer while the scale is
negative (fuelled on the digit count). -/
def stripZerosF : Nat → Int → Int → Int × Int
  | 0, m, e => (m, e)
  | f + 1, m, e =>
    if m ≠ 0 ∧ m % 10 = 0 ∧ e < 0 then stripZerosF f (m / 10) (e + 1) else (m, e)

/-- Python `str(x)` for a float holding the exact decimal `m * 10 ^ e`,
printed positionally with at least one fractional digit (`15.0`, `0.05`).
Python switches to scientific notation outside `[1e-4, 1e16)`; that regime
is not exercised by any claim and is not modelled. -/
def floatRepr (m : Int) (e : Int) : Str :=
  if m = 0 then strL "0.0"
  else
    let me' := stripZerosF m.natAbs m e
    let m' := me'.1
    let e' := me'.2
    if 0 ≤ e' then
      intRepr m' ++ List.replicate e'.toNat '0' ++ strL ".0"
    else
      let f := (-e').toNat
      let a := m'.natAbs
      let frd := natRepr (a % 10 ^ f)
      (if m' < 0 then ['-'] else []) ++ natRepr (a / 10 ^ f) ++
        '.' :: (List.replicate (f - frd.length) '0' ++ frd)

/-! ### The value model

`parse_value` maps a raw literal to a Python value.  The Python script uses
native values (`bool`, `int`, `float`, `None`, `str`, `list`); map literals
are returned as their raw `str`, so there is no separate map constructor —
exactly as in the source, where the `dict` branch of `format_env_value` is
unreachable from parser output. -/

inductive Value where
  | str (s : Str)
  | int (n : Int)
  | float (m : Int) (e : Int)
  | bool (b : Bool)
  | null
  | list (xs : List Value)

/-- Whitespace-trim and single-trailing-comma removal: the preprocessing at
the top of `parse_value` (lines 79–83). -/
def canonVal (s : Str) : Str :=
  let v := pyStrip s
  if endsWithC ',' v then pyStrip v.dropLast else v

/-- The list/map/default tail of `parse_value` (lines 107–126), abstracted
over the recursive call used for list items: exactly-bracketed lists split
the interior on every comma and recursively parse the nonempty stripped
items; exactly-braced literals and everything else fall back to the raw
string. -/
def parseTailWith (rec : Str → Value) (t : Str) : Value :=
  if startsWithC '[' t && endsWithC ']' t then
    let inner := pyStrip ((t.drop 1).dropLast)
    if inner = [] then Value.list []
    else
      Value.list ((splitOnChar ',' inner).filterMap (fun item =>
        let it := pyStrip item
        if it = [] then none else some (rec it)))
  else if startsWithC '{' t && endsWithC '}' t then Value.str t
  else Value.str t

/-- The body of `parse_value` (lines 77–126), fuelled: the chain of rules
boolean → null → quoted string → number (`.` routes to float, otherwise
int) → list/map/default via `parseTailWith`. -/
def parseValueF : Nat → Str → Value
  | 0, s => Value.str (canonVal s)
  | fuel + 1, s =>
    let t := canonVal s
    if lowerStr t = strL "true" then Value.bool true
    else if lowerStr t = strL "false" then Value.bool false
    else if lowerStr t = strL "null" then Value.null
    else if startsWithC '"' t && endsWithC '"' t then Value.str ((t.drop 1).dropLast)
    else if '.' ∈ t then
      match pyFloatParse t with
      | some me => Value.float me.1 me.2
      | none => parseTailWith (fun u => parseValueF fuel u) t
    else
      match pyIntParse t with
      | some n => Value.int n
      | none => parseTailWith (fun u => parseValueF fuel u) t

/-- `parse_value`: the fuel `s.length + 1` provably suffices
(`parseValueF_fuel`), since every recursive call is on a strictly shorter
string. -/
def parseValue (s : Str) : Value := parseValueF (s.length + 1) s

/-- The list/map/default tail of `parse_value` at a given recursion fuel. -/
def parseTailAt (fuel : Nat) (t : Str) : Value :=
  parseTailWith (fun u => parseValueF fuel u) t

/-! ### Python `str`/`repr` and `format_env_value` -/

/-- Python `repr` of a string: quote choice (single quotes unless the text
contains `'` but no `"`) and backslash escaping of the backslash, the
chosen quote and the common control characters.  (`\xhh` escapes of other
non-printables are outside the modelled character set.) -/
def pyReprStr (s : Str) : Str :=
  let q : Char := if s.contains '\'' && !s.contains '"' then '"' else '\''
  q :: s.foldr (fun c acc =>
    if c = '\\' then '\\' :: '\\' :: acc
    else if c = q then '\\' :: q :: acc
    else if c = '\n' then '\\' :: 'n' :: acc
    else if c = '\t' then '\\' :: 't' :: acc
    else if c = '\r' then '\\' :: 'r' :: acc
    else c :: acc) [q]

mutual

/-- Python `repr(v)` for parser-produced values. -/
def pyRepr : Value → Str
  | .str s => pyReprStr s
  | .int n => intRepr n
  | .float m e => floatRepr m e
  | .bool b => if b then strL "True" else strL "False"
  | .null => strL "None"
  | .list xs => '[' :: pyReprList xs ++ [']']

/-- Python `", ".join(repr(x) for x in xs)`, as used by `repr` of a list. -/
def pyReprList : List Value → Str
  | [] => []
  | [v] => pyRepr v
  | v :: rest => pyRepr v ++ ',' :: ' ' :: pyReprList rest

end

/-- Python `str(v)`: identical to `repr(v)` except on strings, where it is
the string itself. -/
def pyStr : Value → Str
  | .str s => s
  | v => pyRepr v

/-- Characters that force quoting in `format_env_value` (line 152). -/
def needsQuote (s : Str) : Bool :=
  s.contains ' ' || s.contains '$' || s.contains '"' || s.contains '\'' ||
    s.contains '`' || s.contains '\\'

/-- The backslash-then-quote escaping of `format_env_value` (line 154):
`.replace("\\", "\\\\").replace('"', '\\"')`, equivalently a per-character
expansion since the two replacements do not overlap. -/
def escEnv (s : Str) : Str :=
  s.foldr (fun c acc =>
    if c = '\\' then '\\' :: '\\' :: acc
    else if c = '"' then '\\' :: '"' :: acc
    else c :: acc) []

/-- The string branch of `format_env_value` (lines 150–157). -/
def formatStr (s : Str) : Str :=
  if needsQuote s then '"' :: escEnv s ++ ['"'] else s

/-- `format_env_value` (lines 129–157).  List elements go through Python
`str()` (not recursively through this function), and the `dict` branch of
the source is unreachable from parser output, so map literals take the
string branch. -/
def formatEnvValue : Value → Str
  | .null => []
  | .bool b => if b then strL "true" else strL "false"
  | .int n => intRepr n
  | .float m e => floatRepr m e
  | .list xs => List.intercalate (strL ",") (xs.map pyStr)
  | .str s => formatStr s

/-! ### Association lists standing for Python dicts -/

/-- Python `d[k]` lookup (`None` for absence). -/
def lookupA {β : Type} : List (Str × β) → Str → Option β
  | [], _ => none
  | (k, v) :: t, q => if k = q then some v else lookupA t q

/-- Python `d[k] = v`: update the first matching binding in place, else
append — insertion-ordered dict semantics. -/
def setKey {β : Type} : List (Str × β) → Str → β → List (Str × β)
  | [], k, v => [(k, v)]
  | (k0, v0) :: t, k, v =>
    if k0 = k then (k0, v) :: t else (k0, v0) :: setKey t k v

/-! ### The assignment scanner (`parse_tfvars`, lines 15–74) -/

/-- Bracket balance of one line: `count("{") + count("[") - count("}") - count("]")`
(lines 56–57, 63–64). -/
def brCount (l : Str) : Int :=
  (l.countP (fun c => c = '{' || c = '[') : Int) -
    (l.countP (fun c => c = '}' || c = ']') : Int)

/-- The inner continuation loop (lines 59–65): consume physical lines while
the bracket counter is positive, appending the stripped nonempty
non-comment ones; returns the unconsumed suffix and the collected pieces. -/
def collectMulti : List Str → Int → List Str × List Str
  | [], _ => ([], [])
  | l :: rest, cnt =>
    if cnt ≤ 0 then (l :: rest, [])
    else
      let nl := pyStrip l
      if nl ≠ [] ∧ nl.head? ≠ some '#' then
        let r := collectMulti rest (cnt + brCount nl)
        (r.1, nl :: r.2)
      else collectMulti rest cnt

/-- The cursor loop of `parse_tfvars` (lines 31–72), fuelled on the line
count.  Note the faithful modelling of the source's cursor arithmetic:
after a multi-line value the inner loop has already advanced the cursor
past the closing-bracket line, and the outer `i += 1` then skips one
additional physical line (`cm.1.drop 1`). -/
def scanGo : Nat → List Str → List (Str × Value) → List (Str × Value)
  | 0, _, acc => acc
  | _ + 1, [], acc => acc
  | fuel + 1, l :: rest, acc =>
    let line := pyStrip l
    if line = [] ∨ line.head? = some '#' ∨ (strL "//").isPrefixOf line then
      scanGo fuel rest acc
    else if '=' ∈ line then
      let p := splitFirst '=' line
      let key := pyStrip p.1
      let value0 := pyStrip p.2
      let value1 := if '#' ∈ value0 then pyStrip (value0.takeWhile (fun c => c ≠ '#')) else value0
      if endsWithC '{' value1 || endsWithC '[' value1 then
        let cm := collectMulti rest (brCount value1)
        let value2 := List.intercalate [' '] (value1 :: cm.2)
        scanGo fuel (cm.1.drop 1) (setKey acc key (parseValue value2))
      else scanGo fuel rest (setKey acc key (parseValue value1))
    else scanGo fuel rest acc

/-- `parse_tfvars` on the physical lines of the source file; the fuel
`lines.length + 1` provably suffices (`scanGo_fuel`). -/
def parseTfvars (lines : List Str) : List (Str × Value) :=
  scanGo (lines.length + 1) lines []

/-! ### The destination-file codec (`read_env_file` / `write_env_file`) -/

/-- Quote removal of `read_env_file` (lines 182–185): strip one layer of
matching double or single quotes. -/
def stripQuotes (v : Str) : Str :=
  if (startsWithC '"' v && endsWithC '"' v) || (startsWithC '\'' v && endsWithC '\'' v)
  then (v.drop 1).dropLast else v

/-- The line loop of `read_env_file` (lines 167–187). -/
def readGo : List Str → List (Str × Str) → List (Str × Str)
  | [], acc => acc
  | l :: rest, acc =>
    let line := pyStrip l
    if line = [] ∨ line.head? = some '#' then readGo rest acc
    else if '=' ∈ line then
      let p := splitFirst '=' line
      readGo rest (setKey acc (pyStrip p.1) (stripQuotes (pyStrip p.2)))
    else readGo rest acc

/-- `read_env_file` on the physical lines of an existing file. -/
def readEnvLines (lines : List Str) : List (Str × Str) := readGo lines []

/-- Python `f.readlines()` composed with the per-line handling: the file
text split at newlines, without a final empty fragment. -/
def pyLinesGo (cur : Str) : Str → List Str
  | [] => if cur = [] then [] else [cur.reverse]
  | a :: as => if a = '\n' then cur.reverse :: pyLinesGo [] as else pyLinesGo (a :: cur) as

/-- Physical lines of a file text. -/
def pyLines (s : Str) : List Str := pyLinesGo [] s

/-- `read_env_file` (lines 160–189): a missing file reads as the empty map. -/
def readEnvOpt : Option Str → List (Str × Str)
  | none => []
  | some d => readEnvLines (pyLines d)

/-- Python string `<=`: lexicographic comparison by code point, as used by
`sorted` on the key strings. -/
def lexLe : Str → Str → Bool
  | [], _ => true
  | _ :: _, [] => false
  | a :: as, b :: bs =>
    if a < b then true else if b < a then false else lexLe as bs

/-- The propositional form of `lexLe`, the order `sorted` sorts by. -/
def KeyLE : Str → Str → Prop := fun a b => lexLe a b = true

instance : DecidableRel KeyLE := fun _ _ => inferInstanceAs (Decidable (_ = true))

/-- Python `sorted(variables.keys())` (line 201).  Insertion sort computes
the same list as any stable sort under the same total order. -/
def sortedKeys {β : Type} (env : List (Str × β)) : List Str :=
  List.insertionSort KeyLE (env.map (fun p => p.1))

/-- `write_env_file` (lines 192–203) as the produced file text: the header
(when truthy) followed by a blank separator line, then one `key=value`
line per key in sorted order. -/
def writeEnvText (hdr : Option Str) (env : List (Str × Str)) : Str :=
  (match hdr with
   | some h => if h = [] then [] else h ++ strL "\n\n"
   | none => []) ++
  ((sortedKeys env).map (fun k => k ++ '=' :: ((lookupA env k).getD []) ++ ['\n'])).flatten

/-! ### The merge engine and the whole run (`sync_tfvars_to_env`, lines 206–260) -/

/-- Key transformation (line 234): `f"{prefix}{key.upper()}"`. -/
def tfKey (pre key : Str) : Str := pre ++ upperStr key

/-- The merge loop (lines 230–243), threading the updated/new counters. -/
def mergeGo (pre : Str) : List (Str × Value) → List (Str × Str) → Nat → Nat →
    List (Str × Str) × Nat × Nat
  | [], env, upd, nw => (env, upd, nw)
  | (k, v) :: rest, env, upd, nw =>
    let ek := tfKey pre k
    let ev := formatEnvValue v
    match lookupA env ek with
    | some old => mergeGo pre rest (setKey env ek ev) (if old ≠ ev then upd + 1 else upd) nw
    | none => mergeGo pre rest (setKey env ek ev) upd (nw + 1)

/-- The merge engine: parsed source pairs into the initial working map,
returning the final map and the `(updated, new)` counters. -/
def mergeEnv (pre : Str) (tf : List (Str × Value)) (env0 : List (Str × Str)) :
    List (Str × Str) × Nat × Nat :=
  mergeGo pre tf env0 0 0

/-- The generated header (lines 246–250), parameterized by the source file
name interpolated into its first line. -/
def headerStr (name : Str) : Str :=
  strL "# Environment variables synced from " ++ name ++
    strL "\n# Generated by sync-tfvars-to-env.py\n# DO NOT EDIT THIS FILE MANUALLY - Changes will be overwritten\n#\n# To update: make sync-env or run scripts/sync-tfvars-to-env.py"

/-- The summary returned to the caller. -/
structure SyncResult where
  destText : Str
  newCount : Nat
  updatedCount : Nat
  totalCount : Nat

/-- `sync_tfvars_to_env` (lines 206–260) over file contents: `none` for the
source models `FileNotFoundError`, on which `parse_tfvars` exits before
anything is written (lines 27–29); a missing destination reads as empty. -/
def runSync (name : Str) (src : Option Str) (dest : Option Str) (pre : Str)
    (overwrite : Bool) : Option SyncResult :=
  match src with
  | none => none
  | some s =>
    let tf := parseTfvars (pyLines s)
    let env0 := if overwrite then [] else readEnvOpt dest
    let r := mergeEnv pre tf env0
    some ⟨writeEnvText (some (headerStr name)) r.1, r.2.2, r.2.1, r.1.length⟩

/-- The filesystem visible to one run: the source and destination contents. -/
structure FS where
  src : Option Str
  dest : Option Str

/-- One whole invocation against the filesystem: on `SourceNotFound` the run
aborts before any write and the filesystem is returned unchanged;
otherwise the destination is replaced whole by the written text. -/
def runSyncFS (name : Str) (pre : Str) (overwrite : Bool) (fs : FS) :
    FS × Option SyncResult :=
  match runSync name fs.src fs.dest pre overwrite with
  | none => (fs, none)
  | some r => (⟨fs.src, some r.destText⟩, some r)

/-! ### Well-formedness predicates and auxiliary definitions for the
idempotence analysis -/

/-- The keys of an association list are pairwise distinct. -/
def NodupKeys {β : Type} (m : List (Str × β)) : Prop :=
  (m.map (fun p => p.1)).Nodup

/-- A destination key that survives a write/read round trip: single-line,
whitespace-strip stable, free of `=`, and not starting a `#` comment. -/
def KeyWF (k : Str) : Prop :=
  pyStrip k = k ∧ '=' ∉ k ∧ '\n' ∉ k ∧ k.head? ≠ some '#'

/-- A destination value that survives a write/read round trip: single-line,
whitespace-strip stable and not quote-wrapped. -/
def ValWF (v : Str) : Prop :=
  pyStrip v = v ∧ stripQuotes v = v ∧ '\n' ∉ v

/-- The formatted value the merge loop leaves at a transformed key: the last
source pair mapping to that key wins, `none` when no source pair does. -/
def lastVal (pre : Str) : List (Str × Value) → Str → Option Str
  | [], _ => none
  | (k0, v0) :: rest, k =>
    match lastVal pre rest k with
    | some w => some w
    | none => if tfKey pre k0 = k then some (formatEnvValue v0) else none

/-- The five physical lines of the generated header. -/
def headerLines (name : Str) : List Str :=
  [strL "# Environment variables synced from " ++ name,
   strL "# Generated by sync-tfvars-to-env.py",
   strL "# DO NOT EDIT THIS FILE MANUALLY - Changes will be overwritten",
   strL "#",
   strL "# To update: make sync-env or run scripts/sync-tfvars-to-env.py"]

/-! ### Association-list lemmas -/

theorem lookupA_setKey_self {β : Type} (m : List (Str × β)) (k : Str) (v : β) :
    lookupA (setKey m k v) k = some v := by
  induction m with
  | nil => simp [setKey, lookupA]
  | cons p t ih =>
    obtain ⟨k0, v0⟩ := p
    by_cases h : k0 = k
    · subst h; simp [setKey, lookupA]
    · simp [setKey, lookupA, h, ih]

theorem lookupA_setKey_ne {β : Type} (m : List (Str × β)) {k k' : Str} (v : β)
    (h : k' ≠ k) : lookupA (setKey m k v) k' = lookupA m k' := by
  induction m with
  | nil =>
    have hk : ¬k = k' := fun hh => h hh.symm
    simp [setKey, lookupA, hk]
  | cons p t ih =>
    obtain ⟨k0, v0⟩ := p
    by_cases h0 : k0 = k
    · subst h0
      have hk : ¬k0 = k' := fun hh => h hh.symm
      simp [setKey, lookupA, hk]
    · by_cases h1 : k0 = k'
      · subst h1
        simp [setKey, lookupA, h0]
      · simp [setKey, lookupA, h0, h1, ih]

theorem length_setKey_some {β : Type} (m : List (Str × β)) (k : Str) (v w : β)
    (h : lookupA m k = some w) : (setKey m k v).length = m.length := by
  induction m with
  | nil => simp [lookupA] at h
  | cons p t ih =>
    obtain ⟨k0, v0⟩ := p
    by_cases h0 : k0 = k
    · simp [setKey, h0]
    · simp only [lookupA, if_neg h0] at h
      simp [setKey, h0, ih h]

theorem length_setKey_none {β : Type} (m : List (Str × β)) (k : Str) (v : β)
    (h : lookupA m k = none) : (setKey m k v).length = m.length + 1 := by
  induction m with
  | nil => rfl
  | cons p t ih =>
    obtain ⟨k0, v0⟩ := p
    by_cases h0 : k0 = k
    · simp [lookupA, h0] at h
    · simp only [lookupA, if_neg h0] at h
      simp [setKey, h0, ih h]

theorem mem_keys_iff_lookupA {β : Type} (m : List (Str × β)) (k : Str) :
    k ∈ m.map (fun p => p.1) ↔ (lookupA m k).isSome := by
  induction m with
  | nil => simp [lookupA]
  | cons p t ih =>
    obtain ⟨k0, v0⟩ := p
    by_cases h0 : k0 = k
    · subst h0
      simp only [List.map_cons, lookupA, if_pos rfl, Option.isSome_some]
      exact ⟨fun _ => rfl, fun _ => List.mem_cons_self _ _⟩
    · have hk : ¬k = k0 := fun hh => h0 hh.symm
      simp only [List.map_cons, lookupA, if_neg h0, List.mem_cons]
      constructor
      · intro hor
        rcases hor with hor | hor
        · exact absurd hor hk
        · exact ih.mp hor
      · intro hs
        exact Or.inr (ih.mpr hs)

theorem keys_setKey_some {β : Type} (m : List (Str × β)) (k : Str) (v w : β)
    (h : lookupA m k = some w) :
    (setKey m k v).map (fun p => p.1) = m.map (fun p => p.1) := by
  induction m with
  | nil => simp [lookupA] at h
  | cons p t ih =>
    obtain ⟨k0, v0⟩ := p
    by_cases h0 : k0 = k
    · simp [setKey, h0]
    · simp only [lookupA, if_neg h0] at h
      simp [setKey, h0, ih h]

theorem keys_setKey_none {β : Type} (m : List (Str × β)) (k : Str) (v : β)
    (h : lookupA m k = none) :
    (setKey m k v).map (fun p => p.1) = m.map (fun p => p.1) ++ [k] := by
  induction m with
  | nil => rfl
  | cons p t ih =>
    obtain ⟨k0, v0⟩ := p
    by_cases h0 : k0 = k
    · simp [lookupA, h0] at h
    · simp only [lookupA, if_neg h0] at h
      simp only [setKey, if_neg h0, List.map_cons, ih h, List.cons_append]

theorem nodupKeys_setKey {β : Type} (m : List (Str × β)) (k : Str) (v : β)
    (h : NodupKeys m) : NodupKeys (setKey m k v) := by
  unfold NodupKeys
  cases hl : lookupA m k with
  | none =>
    rw [keys_setKey_none m k v hl]
    have hk : k ∉ m.map (fun p => p.1) := by
      rw [mem_keys_iff_lookupA, hl]; simp
    rw [List.nodup_append]
    refine ⟨h, List.nodup_singleton _, fun a ha hb => ?_⟩
    rw [List.mem_singleton] at hb
    subst hb
    exact hk ha
  | some w =>
    rw [keys_setKey_some m k v w hl]
    exact h

/-! ### Merge-engine lemmas -/

theorem mergeGo_length (pre : Str) (tf : List (Str × Value)) :
    ∀ env u n, (mergeGo pre tf env u n).1.length + n = env.length + (mergeGo pre tf env u n).2.2 := by
  induction tf with
  | nil => intro env u n; simp [mergeGo]
  | cons p rest ih =>
    intro env u n
    obtain ⟨k, v⟩ := p
    cases hl : lookupA env (tfKey pre k) with
    | some old =>
      have hlen : (setKey env (tfKey pre k) (formatEnvValue v)).length = env.length :=
        length_setKey_some _ _ _ old hl
      simp only [mergeGo, hl]
      have h2 := ih (setKey env (tfKey pre k) (formatEnvValue v))
        (if old ≠ formatEnvValue v then u + 1 else u) n
      omega
    | none =>
      have hlen : (setKey env (tfKey pre k) (formatEnvValue v)).length = env.length + 1 :=
        length_setKey_none _ _ _ hl
      simp only [mergeGo, hl]
      have h2 := ih (setKey env (tfKey pre k) (formatEnvValue v)) u (n + 1)
      omega

theorem mergeGo_frame (pre : Str) (tf : List (Str × Value)) {k : Str}
    (h : k ∉ tf.map (fun p => tfKey pre p.1)) :
    ∀ env u n, lookupA (mergeGo pre tf env u n).1 k = lookupA env k := by
  induction tf with
  | nil => intro env u n; simp [mergeGo]
  | cons p rest ih =>
    intro env u n
    obtain ⟨k0, v0⟩ := p
    simp only [List.map_cons, List.mem_cons] at h
    push_neg at h
    cases hl : lookupA env (tfKey pre k0) with
    | some old =>
      simp only [mergeGo, hl]
      rw [ih h.2, lookupA_setKey_ne _ _ h.1]
    | none =>
      simp only [mergeGo, hl]
      rw [ih h.2, lookupA_setKey_ne _ _ h.1]

/-! ### String-primitive lemmas -/

theorem length_pyStrip_le (l : Str) : (pyStrip l).length ≤ l.length := by
  unfold pyStrip dropTrail
  calc ((l.dropWhile pyWs).reverse.dropWhile pyWs).reverse.length
      = ((l.dropWhile pyWs).reverse.dropWhile pyWs).length := List.length_reverse _
    _ ≤ (l.dropWhile pyWs).reverse.length := (List.dropWhile_sublist pyWs).length_le
    _ = (l.dropWhile pyWs).length := List.length_reverse _
    _ ≤ l.length := (List.dropWhile_sublist pyWs).length_le

theorem length_canonVal_le (s : Str) : (canonVal s).length ≤ s.length := by
  unfold canonVal
  by_cases h : endsWithC ',' (pyStrip s) = true
  · simp only [h, if_true]
    calc (pyStrip (pyStrip s).dropLast).length
        ≤ (pyStrip s).dropLast.length := length_pyStrip_le _
      _ ≤ (pyStrip s).length := by rw [List.length_dropLast]; omega
      _ ≤ s.length := length_pyStrip_le s
  · simp only [h, if_false, Bool.false_eq_true]
    exact length_pyStrip_le s

theorem splitOnChar_length_le (c : Char) :
    ∀ l piece, piece ∈ splitOnChar c l → piece.length ≤ l.length := by
  intro l
  induction l with
  | nil =>
    intro p hp
    simp [splitOnChar] at hp
    simp [hp]
  | cons a as ih =>
    intro p hp
    by_cases h : a = c
    · rw [splitOnChar, if_pos h] at hp
      rcases List.mem_cons.mp hp with hp | hp
      · simp [hp]
      · calc p.length ≤ as.length := ih p hp
          _ ≤ (a :: as).length := by simp
    · rw [splitOnChar, if_neg h] at hp
      cases hsp : splitOnChar c as with
      | nil => rw [hsp] at hp; simp at hp; simp [hp]
      | cons hd tl =>
        rw [hsp] at hp
        rcases List.mem_cons.mp hp with hp | hp
        · have hhd : hd.length ≤ as.length := ih hd (hsp ▸ List.mem_cons_self hd tl)
          simp [hp, List.length_cons]
          omega
        · have := ih p (hsp ▸ List.mem_cons_of_mem hd hp)
          simp [List.length_cons]
          omega

/-! ### Parser totality lemmas: fuel irrelevance past the input length -/

theorem parseValueF_nil (f : Nat) : parseValueF f [] = Value.str [] := by
  cases f with
  | zero => rfl
  | succ g => rfl

theorem parseTailWith_congr {rec1 rec2 : Str → Value} (t : Str)
    (h : ∀ u : Str, u.length ≤ t.length - 2 → rec1 u = rec2 u) :
    parseTailWith rec1 t = parseTailWith rec2 t := by
  unfold parseTailWith
  by_cases hb : (startsWithC '[' t && endsWithC ']' t) = true
  · simp only [hb, if_true]
    split_ifs with hi
    · rfl
    · refine congrArg Value.list (List.filterMap_congr ?_)
      intro item hitem
      have hmem : item ∈ splitOnChar ',' (pyStrip ((List.drop 1 t).dropLast)) := by
        simpa [List.drop_one] using hitem
      have hit : (pyStrip item).length ≤ t.length - 2 := by
        calc (pyStrip item).length ≤ item.length := length_pyStrip_le _
          _ ≤ (pyStrip ((List.drop 1 t).dropLast)).length :=
              splitOnChar_length_le ',' _ item hmem
          _ ≤ ((List.drop 1 t).dropLast).length := length_pyStrip_le _
          _ = t.length - 1 - 1 := by rw [List.length_dropLast, List.length_drop]
          _ ≤ t.length - 2 := by omega
      by_cases hz : pyStrip item = []
      · simp [hz]
      · simp only [if_neg hz]
        rw [h _ hit]
  · simp only [hb]
    rfl

theorem parseValueF_fuel : ∀ f1 : Nat, ∀ (s : Str) (f2 : Nat),
    s.length < f1 → s.length < f2 → parseValueF f1 s = parseValueF f2 s := by
  intro f1
  induction f1 using Nat.strong_induction_on with
  | _ f1 ih =>
    intro s f2 h1 h2
    cases f1 with
    | zero => omega
    | succ a =>
      cases f2 with
      | zero => omega
      | succ b =>
        simp only [parseValueF]
        have htail : parseTailWith (fun u => parseValueF a u) (canonVal s)
            = parseTailWith (fun u => parseValueF b u) (canonVal s) := by
          apply parseTailWith_congr
          intro u hu
          have hcs : (canonVal s).length ≤ s.length := length_canonVal_le s
          by_cases hs2 : 2 ≤ s.length
          · have hua : u.length < a := by omega
            have hub : u.length < b := by omega
            exact ih a (by omega) u b hua hub
          · have hu0 : u.length = 0 := by omega
            have : u = [] := List.length_eq_zero.mp hu0
            subst this
            rw [parseValueF_nil, parseValueF_nil]
        rw [htail]

/-! ### Head-based evaluation lemmas for the rule chain -/

theorem dropWhile_eq_self_of_head {p : Char → Bool} {l : Str}
    (h : ∀ c, l.head? = some c → p c = false) : l.dropWhile p = l := by
  cases l with
  | nil => rfl
  | cons a t =>
    rw [List.dropWhile_cons, h a rfl]
    simp

theorem pyStrip_eq_self {l : Str}
    (hh : ∀ c, l.head? = some c → pyWs c = false)
    (hl : ∀ c, l.getLast? = some c → pyWs c = false) : pyStrip l = l := by
  unfold pyStrip dropTrail
  rw [dropWhile_eq_self_of_head hh]
  rw [dropWhile_eq_self_of_head (fun c hc => hl c (by rwa [List.head?_reverse] at hc))]
  exact List.reverse_reverse l

theorem signSplit_default {c : Char} (r : Str) (h1 : c ≠ '+') (h2 : c ≠ '-') :
    signSplit (c :: r) = (1, c :: r) := by
  simp [signSplit, h1, h2]

theorem pyIntParse_none_head {c : Char} {r : Str} (hs : pyStrip (c :: r) = c :: r)
    (h1 : c ≠ '+') (h2 : c ≠ '-') (h3 : c.isDigit = false) :
    pyIntParse (c :: r) = none := by
  simp only [pyIntParse, hs, signSplit_default r h1 h2]
  simp [List.all_cons, h3]

theorem pyFloatParse_none_head {c : Char} {r : Str} (hs : pyStrip (c :: r) = c :: r)
    (h1 : c ≠ '+') (h2 : c ≠ '-') (h3 : c.isDigit = false)
    (h4 : (c = 'e' || c = 'E') = false) (h5 : c ≠ '.') :
    pyFloatParse (c :: r) = none := by
  simp only [pyFloatParse, hs, signSplit_default r h1 h2]
  simp [breakAt, h4, h5, h3]

/-! ### Claim C5: the value parser is total and defaults to a string -/

/-- Claim C5: for every input string the value parser terminates and returns
exactly one `Value` — any fuel beyond the input length yields the same
result, which is what termination of the source's recursion means in the
fuelled model — and an input matching none of the earlier rules (and not
the list rule) degrades to a `String` holding the (trimmed,
comma-stripped) literal text; the brace rule produces that same raw
string. -/
theorem parseValue_total (s : Str) :
    (∀ fuel, s.length < fuel → parseValueF fuel s = parseValue s) ∧
    (lowerStr (canonVal s) ≠ strL "true" →
      lowerStr (canonVal s) ≠ strL "false" →
      lowerStr (canonVal s) ≠ strL "null" →
      (startsWithC '"' (canonVal s) && endsWithC '"' (canonVal s)) = false →
      ('.' ∈ canonVal s → pyFloatParse (canonVal s) = none) →
      ('.' ∉ canonVal s → pyIntParse (canonVal s) = none) →
      (startsWithC '[' (canonVal s) && endsWithC ']' (canonVal s)) = false →
      parseValue s = Value.str (canonVal s)) := by
  constructor
  · intro fuel hf
    exact parseValueF_fuel fuel s (s.length + 1) hf (by omega)
  · intro h1 h2 h3 h4 h5 h6 h7
    unfold parseValue
    simp only [parseValueF]
    rw [if_neg h1, if_neg h2, if_neg h3]
    simp only [h4, Bool.false_eq_true, if_false]
    by_cases hdot : '.' ∈ canonVal s
    · rw [if_pos hdot, h5 hdot]
      show parseTailWith (fun u => parseValueF s.length u) (canonVal s) = Value.str (canonVal s)
      unfold parseTailWith
      simp only [h7, Bool.false_eq_true, if_false]
      split_ifs <;> rfl
    · rw [if_neg hdot, h6 hdot]
      show parseTailWith (fun u => parseValueF s.length u) (canonVal s) = Value.str (canonVal s)
      unfold parseTailWith
      simp only [h7, Bool.false_eq_true, if_false]
      split_ifs <;> rfl

/-- Witness for C5 at the concrete bareword `abc`. -/
theorem parseValue_total_witness :
    parseValueF 10 (strL "abc") = parseValue (strL "abc") ∧
    parseValue (strL "abc") = Value.str (canonVal (strL "abc")) :=
  ⟨(parseValue_total (strL "abc")).1 10 (by decide),
    (parseValue_total (strL "abc")).2 (by decide) (by decide) (by decide) (by decide)
      (by decide) (by decide) (by decide)⟩

/-! ### Claim C7: numeric routing is by `.`-membership, not int-then-float -/

/-- Claim C7 counterexample: on `1e5` the integer parse fails and the parser
falls through to the default string rule even though a float parse would
succeed — so the claimed "on int failure attempt float" chain does not
describe the code. -/
theorem numeric_routing_counterexample :
    parseValue (strL "1e5") = Value.str (strL "1e5") ∧
    (pyFloatParse (strL "1e5")).isSome = true ∧
    pyIntParse (strL "1e5") = none :=
  ⟨rfl, rfl, rfl⟩

/-- Claim C7 as amended: after the boolean/null/quoted rules fail, the
parser routes on `.`-membership — a `.`-containing literal gets exactly
one float attempt and every other literal exactly one integer attempt,
falling through to the list/map/string tail when that single attempt
fails; a failed integer parse never triggers a float attempt. -/
theorem numeric_routing (s : Str)
    (h1 : lowerStr (canonVal s) ≠ strL "true")
    (h2 : lowerStr (canonVal s) ≠ strL "false")
    (h3 : lowerStr (canonVal s) ≠ strL "null")
    (h4 : (startsWithC '"' (canonVal s) && endsWithC '"' (canonVal s)) = false) :
    parseValue s =
      (if '.' ∈ canonVal s then
        match pyFloatParse (canonVal s) with
        | some me => Value.float me.1 me.2
        | none => parseTailAt s.length (canonVal s)
      else
        match pyIntParse (canonVal s) with
        | some n => Value.int n
        | none => parseTailAt s.length (canonVal s)) := by
  unfold parseValue
  simp only [parseValueF]
  rw [if_neg h1, if_neg h2, if_neg h3]
  simp only [h4, Bool.false_eq_true, if_false]
  rfl

/-- Witness for the amended C7 at the concrete literal `2.5`. -/
theorem numeric_routing_witness :
    parseValue (strL "2.5") =
      (if '.' ∈ canonVal (strL "2.5") then
        match pyFloatParse (canonVal (strL "2.5")) with
        | some me => Value.float me.1 me.2
        | none => parseTailAt (strL "2.5").length (canonVal (strL "2.5"))
      else
        match pyIntParse (canonVal (strL "2.5")) with
        | some n => Value.int n
        | none => parseTailAt (strL "2.5").length (canonVal (strL "2.5"))) :=
  numeric_routing (strL "2.5") (by decide) (by decide) (by decide) (by decide)

/-! ### Claim C2: list formatting goes through Python `str`, not recursion -/

/-- Claim C2 counterexample: a list containing `true` is emitted as the
element text `True` (not the claimed lowercase `true`), and a list
containing `Null` contributes the element text `None` (not the claimed
empty string), because list elements are converted with Python `str()`
rather than by the recursive formatting rules. -/
theorem list_format_counterexample :
    formatEnvValue (parseValue (strL "[true]")) = strL "True" ∧
    strL "True" ≠ strL "true" ∧
    formatEnvValue (parseValue (strL "[null]")) = strL "None" ∧
    strL "None" ≠ ([] : Str) :=
  ⟨rfl, by decide, rfl, by decide⟩

/-- Claim C2 as amended: the formatter joins the elements of a parsed list
with `,`, but each element is converted with Python `str()` — so a
boolean `true` element is emitted as `True`, a `Null` element as `None`,
and a full pipeline run on `[true, null]` yields `True,None`. -/
theorem list_format_via_pyStr (xs : List Value) :
    formatEnvValue (Value.list xs) = List.intercalate (strL ",") (xs.map pyStr) ∧
    pyStr (Value.bool true) = strL "True" ∧
    pyStr Value.null = strL "None" ∧
    formatEnvValue (parseValue (strL "[true, null]")) = strL "True,None" :=
  ⟨rfl, rfl, rfl, rfl⟩

/-! ### Claim C3: map literals are not re-serialized as JSON -/

/-- Claim C3 counterexample: the parsed map literal `{ a = 1 }` is kept as a
raw string and formatted by the string rule — the emitted text is the
quoted literal (it begins with `"`, not `{`, and still contains the `=`
signs), not compact JSON-equivalent text; the `dict` branch of
`format_env_value` is unreachable from parser output. -/
theorem rawmap_format_counterexample :
    parseValue (strL "{ a = 1 }") = Value.str (strL "{ a = 1 }") ∧
    formatEnvValue (parseValue (strL "{ a = 1 }")) = strL "\"{ a = 1 }\"" ∧
    (formatEnvValue (parseValue (strL "{ a = 1 }"))).head? = some '"' :=
  ⟨rfl, rfl, rfl⟩

/-- Claim C3 as amended: every literal exactly wrapped in `{` … `}` parses
to the raw string of its own text and is formatted by the String rule
(emitted unchanged unless it contains a space or special character, in
which case it is quoted with escaping), never re-serialized as JSON. -/
theorem rawmap_formats_as_string (s : Str)
    (h1 : s.head? = some '{') (h2 : s.getLast? = some '}') :
    parseValue s = Value.str s ∧ formatEnvValue (parseValue s) = formatStr s := by
  obtain ⟨r, rfl⟩ : ∃ r, s = '{' :: r := by
    cases s with
    | nil => simp at h1
    | cons a t =>
      have ha : a = '{' := by simpa using h1
      exact ⟨t, by rw [ha]⟩
  have hstrip : pyStrip ('{' :: r) = '{' :: r := by
    apply pyStrip_eq_self
    · intro c hc
      have hcc : '{' = c := by simpa using hc
      subst hcc; decide
    · intro c hc
      rw [h2] at hc
      have hcc : '}' = c := by simpa using hc
      subst hcc; decide
  have hcanon : canonVal ('{' :: r) = '{' :: r := by
    simp only [canonVal, hstrip]
    have he : endsWithC ',' ('{' :: r) = false := by
      simp [endsWithC, h2]
    simp [he]
  have hlow : ∀ c0 : Char, Char.toLower '{' ≠ c0 →
      ∀ w : Str, (w.head? = some c0) → lowerStr ('{' :: r) ≠ w := by
    intro c0 hne w hw hq
    have hq' : (lowerStr ('{' :: r)).head? = w.head? := congrArg List.head? hq
    simp only [lowerStr, List.map_cons, List.head?_cons, hw] at hq'
    exact hne (by simpa using hq')
  have hparse : parseValue ('{' :: r) = Value.str ('{' :: r) := by
    unfold parseValue
    simp only [parseValueF, hcanon]
    rw [if_neg (hlow 't' (by decide) (strL "true") rfl),
      if_neg (hlow 'f' (by decide) (strL "false") rfl),
      if_neg (hlow 'n' (by decide) (strL "null") rfl)]
    have hq : (startsWithC '"' ('{' :: r) && endsWithC '"' ('{' :: r)) = false := rfl
    simp only [hq, Bool.false_eq_true, if_false]
    have htail : parseTailWith (fun u => parseValueF (('{' :: r).length) u) ('{' :: r)
        = Value.str ('{' :: r) := by
      unfold parseTailWith
      have hsw : startsWithC '[' ('{' :: r) = false := rfl
      have hsw2 : startsWithC '{' ('{' :: r) = true := rfl
      have hew : endsWithC '}' ('{' :: r) = true := by simp [endsWithC, h2]
      simp [hsw, hsw2, hew]
    by_cases hdot : '.' ∈ ('{' :: r)
    · rw [if_pos hdot,
        pyFloatParse_none_head hstrip (by decide) (by decide) (by decide) (by decide) (by decide)]
      exact htail
    · rw [if_neg hdot,
        pyIntParse_none_head hstrip (by decide) (by decide) (by decide)]
      exact htail
  exact ⟨hparse, by rw [hparse]; rfl⟩

/-- Witness for the amended C3 at the concrete literal `{a=1}`. -/
theorem rawmap_formats_as_string_witness :
    parseValue (strL "{a=1}") = Value.str (strL "{a=1}") ∧
    formatEnvValue (parseValue (strL "{a=1}")) = formatStr (strL "{a=1}") :=
  rawmap_formats_as_string (strL "{a=1}") (by decide) (by decide)

/-! ### Claim C8: the scanner skips the line after a multi-line value -/

/-- Claim C8 evaluation at the failing input: after a multi-line bracketed
record the cursor has already passed the closing-bracket line when the
outer loop increments it again, so the physical line immediately after
the closing bracket is silently skipped — the assignment `b = 1` on that
line is dropped, contradicting the claim; with a blank line in between,
`b = 1` is parsed. -/
theorem scanner_skips_line_after_bracket :
    parseTfvars (pyLines (strL "a = [\n]\nb = 1")) = [(strL "a", Value.list [])] ∧
    lookupA (parseTfvars (pyLines (strL "a = [\n]\nb = 1"))) (strL "b") = none ∧
    parseTfvars (pyLines (strL "a = [\n]\n\nb = 1")) =
      [(strL "a", Value.list []), (strL "b", Value.int 1)] :=
  ⟨rfl, rfl, rfl⟩

/-! ### The sort order of the writer -/

theorem lexLe_cons (a b : Char) (as bs : Str) :
    lexLe (a :: as) (b :: bs) = true ↔ a < b ∨ (a = b ∧ lexLe as bs = true) := by
  by_cases hab : a < b
  · simp [lexLe, hab]
  · by_cases hba : b < a
    · have hne : ¬a = b := fun he => absurd (he ▸ hba) (lt_irrefl _)
      simp [lexLe, hab, hba, hne]
    · have he : a = b := le_antisymm (not_lt.mp hba) (not_lt.mp hab)
      simp [lexLe, hab, hba, he]

theorem lexLe_total : ∀ a b : Str, lexLe a b = true ∨ lexLe b a = true := by
  intro a
  induction a with
  | nil => intro b; left; rfl
  | cons a as ih =>
    intro b
    cases b with
    | nil => right; rfl
    | cons b bs =>
      rcases lt_trichotomy a b with h | h | h
      · left; rw [lexLe_cons]; exact Or.inl h
      · subst h
        rcases ih bs with h' | h'
        · left; rw [lexLe_cons]; exact Or.inr ⟨rfl, h'⟩
        · right; rw [lexLe_cons]; exact Or.inr ⟨rfl, h'⟩
      · right; rw [lexLe_cons]; exact Or.inl h

theorem lexLe_trans : ∀ a b c : Str, lexLe a b = true → lexLe b c = true → lexLe a c = true := by
  intro a
  induction a with
  | nil => intro b c _ _; rfl
  | cons a as ih =>
    intro b c hab hbc
    cases b with
    | nil => simp [lexLe] at hab
    | cons b bs =>
      cases c with
      | nil => simp [lexLe] at hbc
      | cons c cs =>
        rw [lexLe_cons] at hab hbc ⊢
        rcases hab with hab | ⟨hab, hab'⟩
        · rcases hbc with hbc | ⟨hbc, _⟩
          · exact Or.inl (lt_trans hab hbc)
          · exact Or.inl (hbc ▸ hab)
        · rcases hbc with hbc | ⟨hbc, hbc'⟩
          · exact Or.inl (hab ▸ hbc)
          · exact Or.inr ⟨hab.trans hbc, ih bs cs hab' hbc'⟩

theorem lexLe_antisymm : ∀ a b : Str, lexLe a b = true → lexLe b a = true → a = b := by
  intro a
  induction a with
  | nil =>
    intro b _ hba
    cases b with
    | nil => rfl
    | cons b bs => simp [lexLe] at hba
  | cons a as ih =>
    intro b hab hba
    cases b with
    | nil => simp [lexLe] at hab
    | cons b bs =>
      rw [lexLe_cons] at hab hba
      rcases hab with hab | ⟨hab, hab'⟩
      · rcases hba with hba | ⟨hba, _⟩
        · exact absurd hba (lt_asymm hab)
        · exact absurd (hba ▸ hab) (lt_irrefl _)
      · rcases hba with hba | ⟨_, hba'⟩
        · exact absurd (hab ▸ hba) (lt_irrefl _)
        · rw [hab, ih bs hab' hba']

instance : IsTotal Str KeyLE := ⟨lexLe_total⟩

instance : IsTrans Str KeyLE := ⟨lexLe_trans⟩

instance : IsAntisymm Str KeyLE := ⟨lexLe_antisymm⟩

theorem sortedKeys_eq_of_lookup {β : Type} (m1 m2 : List (Str × β))
    (h1 : NodupKeys m1) (h2 : NodupKeys m2)
    (h : ∀ k, lookupA m1 k = lookupA m2 k) : sortedKeys m1 = sortedKeys m2 := by
  have hperm : (m1.map (fun p => p.1)).Perm (m2.map (fun p => p.1)) := by
    refine (List.perm_ext_iff_of_nodup h1 h2).mpr fun a => ?_
    rw [mem_keys_iff_lookupA, mem_keys_iff_lookupA, h a]
  exact List.eq_of_perm_of_sorted
    (((List.perm_insertionSort KeyLE _).trans hperm).trans
      (List.perm_insertionSort KeyLE _).symm)
    (List.sorted_insertionSort KeyLE _) (List.sorted_insertionSort KeyLE _)

theorem writeEnvText_ext (hdr : Option Str) (m1 m2 : List (Str × Str))
    (h1 : NodupKeys m1) (h2 : NodupKeys m2)
    (h : ∀ k, lookupA m1 k = lookupA m2 k) :
    writeEnvText hdr m1 = writeEnvText hdr m2 := by
  unfold writeEnvText
  congr 1
  rw [sortedKeys_eq_of_lookup m1 m2 h1 h2 h]
  refine congrArg List.flatten (List.map_congr_left fun k _ => ?_)
  rw [h k]

/-! ### Claim C9: sorted, deterministic output with the header first -/

/-- Claim C9: the destination file is written with keys in lexicographically
sorted ascending order regardless of insertion order, a truthy header is
written first followed by a blank separator line, and maps that are equal
as key-value functions (with duplicate-free keys) produce byte-identical
output. -/
theorem write_deterministic (hdr : Option Str) (m1 m2 : List (Str × Str))
    (h1 : NodupKeys m1) (h2 : NodupKeys m2)
    (h : ∀ k, lookupA m1 k = lookupA m2 k) :
    writeEnvText hdr m1 = writeEnvText hdr m2 ∧
    List.Sorted KeyLE (sortedKeys m1) ∧
    (∀ hd : Str, hd ≠ [] →
      writeEnvText (some hd) m1 = hd ++ strL "\n\n" ++ writeEnvText none m1) := by
  refine ⟨writeEnvText_ext hdr m1 m2 h1 h2 h, List.sorted_insertionSort KeyLE _, ?_⟩
  · intro hd hne
    unfold writeEnvText
    simp [hne, List.append_assoc]

/-- Witness for C9: permuted two-entry maps write identical bytes, with
`A=1` before `B=2` and the header block first. -/
theorem write_deterministic_witness :
    writeEnvText (some (strL "# H")) [(strL "B", strL "2"), (strL "A", strL "1")]
      = writeEnvText (some (strL "# H")) [(strL "A", strL "1"), (strL "B", strL "2")] ∧
    List.Sorted KeyLE (sortedKeys [(strL "B", strL "2"), (strL "A", strL "1")]) ∧
    (∀ hd : Str, hd ≠ [] →
      writeEnvText (some hd) [(strL "B", strL "2"), (strL "A", strL "1")]
        = hd ++ strL "\n\n" ++ writeEnvText none [(strL "B", strL "2"), (strL "A", strL "1")]) := by
  refine write_deterministic (some (strL "# H")) _ _ (by unfold NodupKeys; decide)
    (by unfold NodupKeys; decide) fun k => ?_
  by_cases hA : k = strL "A"
  · subst hA; rfl
  · by_cases hB : k = strL "B"
    · subst hB; rfl
    · have hA' : ¬(strL "A" = k) := fun hh => hA hh.symm
      have hB' : ¬(strL "B" = k) := fun hh => hB hh.symm
      simp [lookupA, hA', hB']

/-! ### Claim C4: a missing source aborts before any write -/

/-- Claim C4: if the source path does not exist the run fails with the
`SourceNotFound` terminal error (modelled as the aborted run `none`) and
the destination file is left entirely untouched; and the run never fails
when the source is present (in particular not for a missing destination),
so there is no partial-failure state within a single run. -/
theorem sourceNotFound_aborts (name pre : Str) (ov : Bool) (d : Option Str) :
    runSyncFS name pre ov ⟨none, d⟩ = (⟨none, d⟩, none) ∧
    ∀ s, ((runSyncFS name pre ov ⟨some s, d⟩).2).isSome := by
  constructor
  · simp [runSyncFS, runSync]
  · intro s
    simp [runSyncFS, runSync]

/-! ### Claim C10: totalCount = initial size + newCount -/

/-- Claim C10: for every run, the reported total variable count equals the
size of the initial working map (the pre-existing destination map, or the
empty map under overwrite) plus the reported new-variable count. -/
theorem totalCount_eq_initial_add_new (name pre src : Str) (dest : Option Str) (ov : Bool) :
    ∃ r, runSync name (some src) dest pre ov = some r ∧
      r.totalCount = (if ov then [] else readEnvOpt dest).length + r.newCount := by
  refine ⟨_, rfl, ?_⟩
  have h := mergeGo_length pre (parseTfvars (pyLines src)) (if ov then [] else readEnvOpt dest) 0 0
  simpa [mergeEnv] using h

/-! ### Claim C6: merge never prunes or alters destination-only keys -/

/-- Claim C6: in an `overwrite=false` run, every key of the pre-existing
destination map that is not among the transformed source keys keeps its
original value in the merged map (merge never prunes or alters it). -/
theorem merge_preserves_foreign_keys (pre src : Str) (dest : Option Str) (k : Str)
    (h : k ∉ (parseTfvars (pyLines src)).map (fun p => tfKey pre p.1)) :
    lookupA (mergeEnv pre (parseTfvars (pyLines src)) (readEnvOpt dest)).1 k
      = lookupA (readEnvOpt dest) k :=
  mergeGo_frame pre _ h _ 0 0

/-- Witness for C6 at a concrete run: the destination-only key `B` keeps its
value `2`. -/
theorem merge_preserves_foreign_keys_witness :
    lookupA (mergeEnv [] (parseTfvars (pyLines (strL "a = 1"))) (readEnvOpt (some (strL "B=2\n")))).1
        (strL "B")
      = lookupA (readEnvOpt (some (strL "B=2\n"))) (strL "B") :=
  merge_preserves_foreign_keys [] (strL "a = 1") (some (strL "B=2\n")) (strL "B") (by decide)

/-! ### Lemmas for the idempotence analysis: strip/line primitives -/

theorem prefix_dropTrail (l : Str) : dropTrail l <+: l := by
  unfold dropTrail
  have h : l.reverse.dropWhile pyWs <:+ l.reverse := List.dropWhile_suffix pyWs
  have h2 := List.reverse_prefix.mpr (by simpa using h)
  simpa using h2

theorem stripStable_parts {l : Str} (hs : pyStrip l = l) :
    l.dropWhile pyWs = l ∧ dropTrail l = l := by
  have hsub1 : List.Sublist (l.dropWhile pyWs) l := List.dropWhile_sublist pyWs
  have hsub2 : List.Sublist (dropTrail (l.dropWhile pyWs)) (l.dropWhile pyWs) :=
    (prefix_dropTrail _).sublist
  have hlen : l.length ≤ (dropTrail (l.dropWhile pyWs)).length := by
    unfold pyStrip at hs
    rw [hs]
  have hlen1 : l.dropWhile pyWs = l := by
    refine hsub1.eq_of_length (le_antisymm hsub1.length_le ?_)
    calc l.length ≤ (dropTrail (l.dropWhile pyWs)).length := hlen
      _ ≤ (l.dropWhile pyWs).length := hsub2.length_le
  refine ⟨hlen1, ?_⟩
  have : pyStrip l = dropTrail l := by
    unfold pyStrip
    rw [hlen1]
  rw [← this, hs]

theorem strip_head_not_ws {l : Str} {c : Char} (hs : pyStrip l = l)
    (hc : l.head? = some c) : pyWs c = false := by
  obtain ⟨t, rfl⟩ : ∃ t, l = c :: t := by
    cases l with
    | nil => simp at hc
    | cons a t =>
      have ha : a = c := by simpa using hc
      exact ⟨t, by rw [ha]⟩
  have hd := (stripStable_parts hs).1
  cases hws : pyWs c with
  | false => rfl
  | true =>
    rw [List.dropWhile_cons, hws] at hd
    simp only [if_true] at hd
    have := congrArg List.length hd
    have hle := (List.dropWhile_sublist (l := t) pyWs).length_le
    simp only [List.length_cons] at this
    omega

theorem strip_last_not_ws {l : Str} {c : Char} (hs : pyStrip l = l)
    (hc : l.getLast? = some c) : pyWs c = false := by
  have hd := (stripStable_parts hs).2
  have hrev : l.reverse.dropWhile pyWs = l.reverse := by
    have : (l.reverse.dropWhile pyWs).reverse = l := hd
    calc l.reverse.dropWhile pyWs = (l.reverse.dropWhile pyWs).reverse.reverse := by
          rw [List.reverse_reverse]
      _ = l.reverse := by rw [this]
  have hcrev : l.reverse.head? = some c := by rw [List.head?_reverse, hc]
  obtain ⟨t, ht⟩ : ∃ t, l.reverse = c :: t := by
    cases hl : l.reverse with
    | nil => rw [hl] at hcrev; simp at hcrev
    | cons a t =>
      rw [hl] at hcrev
      have ha : a = c := by simpa using hcrev
      exact ⟨t, by rw [ha]⟩
  rw [ht] at hrev
  cases hws : pyWs c with
  | false => rfl
  | true =>
    rw [List.dropWhile_cons, hws] at hrev
    simp only [if_true] at hrev
    have := congrArg List.length hrev
    have hle := (List.dropWhile_sublist (l := t) pyWs).length_le
    simp only [List.length_cons] at this
    omega

theorem pyStrip_entry_line {k v : Str} (hk : pyStrip k = k) (hv : pyStrip v = v) :
    pyStrip (k ++ '=' :: v) = k ++ '=' :: v := by
  apply pyStrip_eq_self
  · intro c hc
    cases k with
    | nil =>
      have : c = '=' := by simpa using hc.symm
      subst this; decide
    | cons a t =>
      have hac : a = c := by simpa using hc
      subst hac
      exact strip_head_not_ws hk rfl
  · intro c hc
    by_cases hv0 : v = []
    · subst hv0
      have hcc : (k ++ ['=']).getLast? = some '=' := by
        simp
      rw [hcc] at hc
      have : '=' = c := by simpa using hc
      subst this; decide
    · have hrw : (k ++ '=' :: v).getLast? = v.getLast? := by
        have heq : k ++ '=' :: v = (k ++ ['=']) ++ v := by simp
        rw [heq]
        exact List.getLast?_append_of_ne_nil (k ++ ['=']) hv0
      rw [hrw] at hc
      exact strip_last_not_ws hv hc

theorem splitFirst_entry {k v : Str} (hk : '=' ∉ k) :
    splitFirst '=' (k ++ '=' :: v) = (k, v) := by
  induction k with
  | nil => simp [splitFirst]
  | cons a t ih =>
    have ha : ¬(a = '=') := fun h => hk (h ▸ List.mem_cons_self a t)
    simp only [List.cons_append, splitFirst, if_neg ha, List.append_eq]
    rw [ih (fun h => hk (List.mem_cons_of_mem a h))]

theorem setKey_fresh {β : Type} (m : List (Str × β)) (k : Str) (v : β)
    (h : lookupA m k = none) : setKey m k v = m ++ [(k, v)] := by
  induction m with
  | nil => rfl
  | cons p t ih =>
    obtain ⟨k0, v0⟩ := p
    by_cases h0 : k0 = k
    · simp [lookupA, h0] at h
    · simp only [lookupA, if_neg h0] at h
      simp [setKey, h0, ih h]

theorem lookupA_of_mem {β : Type} {m : List (Str × β)} {k : Str} {v : β}
    (hnd : NodupKeys m) (hm : (k, v) ∈ m) : lookupA m k = some v := by
  induction m with
  | nil => simp at hm
  | cons p t ih =>
    obtain ⟨k0, v0⟩ := p
    unfold NodupKeys at hnd
    simp only [List.map_cons, List.nodup_cons] at hnd
    rcases List.mem_cons.mp hm with heq | hmem
    · obtain ⟨hk, hv⟩ := Prod.mk.injEq .. ▸ heq
      simp [lookupA, hk.symm, hv]
    · have hne : k0 ≠ k := by
        intro hh
        subst hh
        exact hnd.1 ((mem_keys_iff_lookupA t k0).mpr
          (by rw [ih hnd.2 hmem]; rfl))
      simp [lookupA, hne, ih hnd.2 hmem]

theorem mem_of_lookupA {β : Type} {m : List (Str × β)} {k : Str} {v : β}
    (h : lookupA m k = some v) : (k, v) ∈ m := by
  induction m with
  | nil => simp [lookupA] at h
  | cons p t ih =>
    obtain ⟨k0, v0⟩ := p
    by_cases h0 : k0 = k
    · subst h0
      simp only [lookupA, if_pos rfl] at h
      have : v0 = v := by simpa using h
      subst this
      exact List.mem_cons_self _ _
    · simp only [lookupA, if_neg h0] at h
      exact List.mem_cons_of_mem _ (ih h)

theorem lookupA_graph (ks : List Str) (f : Str → Str) (q : Str) :
    lookupA (ks.map (fun k => (k, f k))) q = if q ∈ ks then some (f q) else none := by
  induction ks with
  | nil => simp [lookupA]
  | cons a t ih =>
    by_cases ha : a = q
    · subst ha
      simp [lookupA]
    · have ha' : ¬(q = a) := fun hh => ha hh.symm
      simp [lookupA, ha, ha', ih]

theorem keys_graph (ks : List Str) (f : Str → Str) :
    (ks.map (fun k => (k, f k))).map (fun p => p.1) = ks := by
  induction ks with
  | nil => rfl
  | cons a t ih => simp only [List.map_cons, ih]

/-! ### Physical-line lemmas for `readlines` -/

theorem pyLinesGo_no_nl :
    ∀ (s cur : Str), '\n' ∉ cur → ∀ p ∈ pyLinesGo cur s, '\n' ∉ p := by
  intro s
  induction s with
  | nil =>
    intro cur hcur p hp
    by_cases h0 : cur = []
    · simp [pyLinesGo, h0] at hp
    · simp only [pyLinesGo, if_neg h0] at hp
      have : p = cur.reverse := by simpa using hp
      subst this
      simpa using hcur
  | cons a as ih =>
    intro cur hcur p hp
    by_cases ha : a = '\n'
    · subst ha
      simp only [pyLinesGo, if_pos rfl] at hp
      rcases List.mem_cons.mp hp with hp | hp
      · subst hp; simpa using hcur
      · exact ih [] (by simp) p hp
    · simp only [pyLinesGo, if_neg ha] at hp
      refine ih (a :: cur) ?_ p hp
      intro hmem
      rcases List.mem_cons.mp hmem with hh | hh
      · exact ha hh.symm
      · exact hcur hh

theorem pyLines_no_nl (s : Str) : ∀ p ∈ pyLines s, '\n' ∉ p :=
  pyLinesGo_no_nl s [] (by simp)

theorem pyLinesGo_append {l : Str} (hl : '\n' ∉ l) (s : Str) :
    ∀ cur, pyLinesGo cur (l ++ '\n' :: s) = (cur.reverse ++ l) :: pyLinesGo [] s := by
  induction l with
  | nil => intro cur; simp [pyLinesGo]
  | cons a t ih =>
    intro cur
    have ha : ¬(a = '\n') := fun h => hl (h ▸ List.mem_cons_self a t)
    simp only [List.cons_append, pyLinesGo, if_neg ha, List.append_eq]
    rw [ih (fun h => hl (List.mem_cons_of_mem a h)) (a :: cur)]
    simp

theorem pyLines_append {l : Str} (hl : '\n' ∉ l) (s : Str) :
    pyLines (l ++ '\n' :: s) = l :: pyLines s := by
  unfold pyLines
  rw [pyLinesGo_append hl s []]
  simp

/-! ### Merge-engine lemmas for the idempotence analysis -/

theorem mergeGo_nodup (pre : Str) (tf : List (Str × Value)) :
    ∀ env u n, NodupKeys env → NodupKeys (mergeGo pre tf env u n).1 := by
  induction tf with
  | nil => intro env u n h; simpa [mergeGo] using h
  | cons p rest ih =>
    intro env u n h
    obtain ⟨k, v⟩ := p
    cases hl : lookupA env (tfKey pre k) with
    | some old =>
      simp only [mergeGo, hl]
      exact ih _ _ _ (nodupKeys_setKey _ _ _ h)
    | none =>
      simp only [mergeGo, hl]
      exact ih _ _ _ (nodupKeys_setKey _ _ _ h)

theorem mergeGo_lookup (pre : Str) (tf : List (Str × Value)) (k : Str) :
    ∀ env u n, lookupA (mergeGo pre tf env u n).1 k =
      (match lastVal pre tf k with
       | some w => some w
       | none => lookupA env k) := by
  induction tf with
  | nil => intro env u n; simp [mergeGo, lastVal]
  | cons p rest ih =>
    intro env u n
    obtain ⟨k0, v0⟩ := p
    have hstep : ∀ u' n', lookupA (mergeGo pre rest (setKey env (tfKey pre k0) (formatEnvValue v0)) u' n').1 k =
        (match lastVal pre ((k0, v0) :: rest) k with
         | some w => some w
         | none => lookupA env k) := by
      intro u' n'
      rw [ih]
      cases hlast : lastVal pre rest k with
      | some w => simp [lastVal, hlast]
      | none =>
        simp only [lastVal, hlast]
        by_cases hek : tfKey pre k0 = k
        · subst hek
          rw [lookupA_setKey_self]
          simp
        · rw [lookupA_setKey_ne _ _ (fun hh => hek hh.symm)]
          simp [hek]
    cases hl : lookupA env (tfKey pre k0) with
    | some old =>
      simp only [mergeGo, hl]
      exact hstep _ _
    | none =>
      simp only [mergeGo, hl]
      exact hstep _ _

theorem mergeGo_upd (pre : Str) (tf : List (Str × Value)) :
    ∀ env u n, (tf.map (fun p => tfKey pre p.1)).Nodup →
      (∀ p ∈ tf, lookupA env (tfKey pre p.1) = some (formatEnvValue p.2)) →
      (mergeGo pre tf env u n).2.1 = u := by
  induction tf with
  | nil => intro env u n _ _; simp [mergeGo]
  | cons p rest ih =>
    intro env u n hnd hall
    obtain ⟨k0, v0⟩ := p
    have h0 : lookupA env (tfKey pre k0) = some (formatEnvValue v0) :=
      hall (k0, v0) (List.mem_cons_self _ _)
    simp only [mergeGo, h0, ne_eq, not_true_eq_false, if_false, ite_self]
    simp only [List.map_cons, List.nodup_cons] at hnd
    refine ih _ _ _ hnd.2 fun q hq => ?_
    have hqe : tfKey pre q.1 ≠ tfKey pre k0 := by
      intro hh
      exact hnd.1 (hh ▸ List.mem_map_of_mem (fun p => tfKey pre p.1) hq)
    rw [lookupA_setKey_ne _ _ hqe]
    exact hall q (List.mem_cons_of_mem _ hq)

theorem lastVal_none (pre : Str) : ∀ (tf : List (Str × Value)) (k : Str),
    k ∉ tf.map (fun p => tfKey pre p.1) → lastVal pre tf k = none := by
  intro tf
  induction tf with
  | nil => intro k _; rfl
  | cons q rest ih =>
    intro k hk
    obtain ⟨k0, v0⟩ := q
    simp only [List.map_cons, List.mem_cons] at hk
    push_neg at hk
    have h1 : lastVal pre rest k = none := ih k hk.2
    simp only [lastVal, h1]
    rw [if_neg (fun hh => hk.1 hh.symm)]

theorem lastVal_self (pre : Str) : ∀ (tf : List (Str × Value)),
    (tf.map (fun p => tfKey pre p.1)).Nodup →
    ∀ p ∈ tf, lastVal pre tf (tfKey pre p.1) = some (formatEnvValue p.2) := by
  intro tf
  induction tf with
  | nil => intro _ p hp; simp at hp
  | cons q rest ih =>
    intro hnd p hp
    obtain ⟨k0, v0⟩ := q
    simp only [List.map_cons, List.nodup_cons] at hnd
    rcases List.mem_cons.mp hp with heq | hmem
    · subst heq
      have hnone : lastVal pre rest (tfKey pre k0) = none :=
        lastVal_none pre rest _ hnd.1
      show lastVal pre ((k0, v0) :: rest) (tfKey pre k0) = some (formatEnvValue v0)
      simp [lastVal, hnone]
    · have hsome := ih hnd.2 p hmem
      simp [lastVal, hsome]

theorem lastVal_mem (pre : Str) : ∀ (tf : List (Str × Value)) (k : Str) (w : Str),
    lastVal pre tf k = some w →
    ∃ p ∈ tf, tfKey pre p.1 = k ∧ w = formatEnvValue p.2 := by
  intro tf
  induction tf with
  | nil => intro k w h; simp [lastVal] at h
  | cons q rest ih =>
    intro k w h
    obtain ⟨k0, v0⟩ := q
    simp only [lastVal] at h
    cases hl : lastVal pre rest k with
    | some w' =>
      rw [hl] at h
      have hw : w' = w := by simpa using h
      subst hw
      obtain ⟨p, hp, hpk, hpw⟩ := ih k w' hl
      exact ⟨p, List.mem_cons_of_mem _ hp, hpk, hpw⟩
    | none =>
      rw [hl] at h
      by_cases hek : tfKey pre k0 = k
      · rw [if_pos hek] at h
        have hw : formatEnvValue v0 = w := by simpa using h
        exact ⟨(k0, v0), List.mem_cons_self _ _, hek, hw.symm⟩
      · rw [if_neg hek] at h
        simp at h

theorem lookupA_append {β : Type} (m1 m2 : List (Str × β)) (q : Str) :
    lookupA (m1 ++ m2) q =
      (match lookupA m1 q with
       | some v => some v
       | none => lookupA m2 q) := by
  induction m1 with
  | nil => simp [lookupA]
  | cons p t ih =>
    obtain ⟨k0, v0⟩ := p
    by_cases h0 : k0 = q
    · simp [lookupA, h0]
    · simp [lookupA, h0, ih]

theorem sortedKeys_mem {β : Type} (m : List (Str × β)) (k : Str) :
    k ∈ sortedKeys m ↔ k ∈ m.map (fun p => p.1) :=
  (List.perm_insertionSort KeyLE _).mem_iff

theorem sortedKeys_nodup {β : Type} (m : List (Str × β)) (h : NodupKeys m) :
    (sortedKeys m).Nodup :=
  ((List.perm_insertionSort KeyLE _).nodup_iff).mpr h

/-! ### Reading back a written destination file -/

theorem pyStrip_head_cases (c : Char) (x : Str) (hc : pyWs c = false) :
    pyStrip (c :: x) = [] ∨ (pyStrip (c :: x)).head? = some c := by
  have hdw : (c :: x).dropWhile pyWs = c :: x := by
    rw [List.dropWhile_cons, hc]
    simp
  have hps : pyStrip (c :: x) = dropTrail (c :: x) := by
    unfold pyStrip
    rw [hdw]
  have hpre : dropTrail (c :: x) <+: c :: x := prefix_dropTrail _
  cases hdt : dropTrail (c :: x) with
  | nil => left; rw [hps, hdt]
  | cons a t =>
    right
    rw [hps, hdt]
    obtain ⟨t2, ht2⟩ := hpre
    rw [hdt] at ht2
    have : a = c := by
      have := congrArg List.head? ht2
      simpa using this
    rw [this]
    rfl

theorem readGo_skip_hash (l : Str) (h : l.head? = some '#') (rest : List Str)
    (acc : List (Str × Str)) : readGo (l :: rest) acc = readGo rest acc := by
  obtain ⟨x, rfl⟩ : ∃ x, l = '#' :: x := by
    cases l with
    | nil => simp at h
    | cons a t =>
      have ha : a = '#' := by simpa using h
      exact ⟨t, by rw [ha]⟩
  rcases pyStrip_head_cases '#' x (by decide) with hc | hc
  · simp [readGo, hc]
  · simp [readGo, hc]

theorem readGo_skip_nil (rest : List Str) (acc : List (Str × Str)) :
    readGo ([] :: rest) acc = readGo rest acc := by
  have h : pyStrip ([] : Str) = [] := rfl
  simp [readGo, h]

theorem readGo_entry {k v : Str} (hk : KeyWF k) (hv : pyStrip v = v)
    (rest : List Str) (acc : List (Str × Str)) :
    readGo ((k ++ '=' :: v) :: rest) acc = readGo rest (setKey acc k (stripQuotes v)) := by
  obtain ⟨hk1, hk2, hk3, hk4⟩ := hk
  have hline : pyStrip (k ++ '=' :: v) = k ++ '=' :: v := pyStrip_entry_line hk1 hv
  have hne : ¬(k ++ '=' :: v = []) := by
    intro h
    have := congrArg List.length h
    simp at this
  have hhash : ¬((k ++ '=' :: v).head? = some '#') := by
    cases k with
    | nil => simp
    | cons a t =>
      simp only [List.cons_append, List.head?_cons]
      intro hh
      have ha : a = '#' := by simpa using hh
      exact hk4 (by rw [List.head?_cons, ha])
  have hmem : '=' ∈ k ++ '=' :: v := List.mem_append_right _ (List.mem_cons_self _ _)
  simp only [readGo, hline]
  rw [if_neg (by push_neg; exact ⟨hne, hhash⟩), if_pos hmem, splitFirst_entry hk2]
  rw [show (k, v).1 = k from rfl, show (k, v).2 = v from rfl, hk1, hv]

theorem readGo_entryList :
    ∀ (ks : List Str) (f : Str → Str) (acc : List (Str × Str)),
      (∀ k ∈ ks, KeyWF k ∧ pyStrip (f k) = f k) →
      ks.Nodup →
      (∀ k ∈ ks, lookupA acc k = none) →
      readGo (ks.map (fun k => k ++ '=' :: f k)) acc
        = acc ++ ks.map (fun k => (k, stripQuotes (f k))) := by
  intro ks f
  induction ks with
  | nil => intro acc _ _ _; simp [readGo]
  | cons a t ih =>
    intro acc hwf hnd hacc
    have ha := hwf a (List.mem_cons_self _ _)
    simp only [List.map_cons]
    rw [readGo_entry ha.1 ha.2, setKey_fresh acc a _ (hacc a (List.mem_cons_self _ _))]
    simp only [List.nodup_cons] at hnd
    rw [ih (acc ++ [(a, stripQuotes (f a))])
      (fun k hk => hwf k (List.mem_cons_of_mem _ hk)) hnd.2 ?hfresh]
    · simp
    case hfresh =>
      intro k hk
      rw [lookupA_append]
      rw [hacc k (List.mem_cons_of_mem _ hk)]
      have hka : ¬(a = k) := fun hh => hnd.1 (hh ▸ hk)
      simp [lookupA, hka]

/-! ### Physical lines of the written destination file -/

theorem headerStr_ne_nil (name : Str) : headerStr name ≠ [] := by
  intro h
  have hl := congrArg List.length h
  simp only [headerStr, List.length_append, List.length_nil] at hl
  have h36 : (strL "# Environment variables synced from ").length = 36 := rfl
  omega

theorem pyLines_headerChunk (name : Str) (hname : '\n' ∉ name) (rest : Str) :
    pyLines (headerStr name ++ '\n' :: '\n' :: rest)
      = headerLines name ++ [] :: pyLines rest := by
  have h1nl : '\n' ∉ strL "# Environment variables synced from " ++ name := by
    intro h
    rcases List.mem_append.mp h with h | h
    · exact absurd h (by decide)
    · exact hname h
  have key : headerStr name ++ '\n' :: '\n' :: rest =
      (strL "# Environment variables synced from " ++ name) ++ '\n' ::
        (strL "# Generated by sync-tfvars-to-env.py" ++ '\n' ::
        (strL "# DO NOT EDIT THIS FILE MANUALLY - Changes will be overwritten" ++ '\n' ::
        (strL "#" ++ '\n' ::
        (strL "# To update: make sync-env or run scripts/sync-tfvars-to-env.py" ++ '\n' ::
          ([] ++ '\n' :: rest))))) := by
    unfold headerStr
    simp only [List.append_assoc, List.cons_append, List.nil_append]
    congr 2
  rw [key, pyLines_append h1nl, pyLines_append (by decide), pyLines_append (by decide),
    pyLines_append (by decide), pyLines_append (by decide), pyLines_append (by simp)]
  rfl

theorem pyLines_entryBlock :
    ∀ (es : List Str), (∀ e ∈ es, '\n' ∉ e) →
      pyLines ((es.map (fun e => e ++ ['\n'])).flatten) = es := by
  intro es
  induction es with
  | nil => intro _; rfl
  | cons a t ih =>
    intro h
    simp only [List.map_cons, List.flatten_cons]
    have hre : (a ++ ['\n']) ++ (t.map (fun e => e ++ ['\n'])).flatten
        = a ++ '\n' :: (t.map (fun e => e ++ ['\n'])).flatten := by
      simp
    rw [hre, pyLines_append (h a (List.mem_cons_self _ _)),
      ih (fun e he => h e (List.mem_cons_of_mem _ he))]

theorem readEnv_writeEnv (name : Str) (m : List (Str × Str))
    (hname : '\n' ∉ name) (hnd : NodupKeys m)
    (hkeys : ∀ p ∈ m, KeyWF p.1)
    (hvals : ∀ p ∈ m, pyStrip p.2 = p.2 ∧ '\n' ∉ p.2) :
    readEnvLines (pyLines (writeEnvText (some (headerStr name)) m))
      = (sortedKeys m).map (fun k => (k, stripQuotes ((lookupA m k).getD []))) := by
  have hkWF : ∀ k ∈ sortedKeys m, KeyWF k ∧
      pyStrip ((lookupA m k).getD []) = (lookupA m k).getD [] ∧
      '\n' ∉ (lookupA m k).getD [] := by
    intro k hk
    have hkm : k ∈ m.map (fun p => p.1) := (sortedKeys_mem m k).mp hk
    have hsome : (lookupA m k).isSome := (mem_keys_iff_lookupA m k).mp hkm
    obtain ⟨v, hv⟩ := Option.isSome_iff_exists.mp hsome
    have hmem : (k, v) ∈ m := mem_of_lookupA hv
    rw [hv]
    exact ⟨hkeys _ hmem, (hvals _ hmem).1, (hvals _ hmem).2⟩
  have hes : ∀ k ∈ sortedKeys m, '\n' ∉ k ++ '=' :: ((lookupA m k).getD []) := by
    intro k hk hmem
    rcases List.mem_append.mp hmem with h | h
    · exact (hkWF k hk).1.2.2.1 h
    · rcases List.mem_cons.mp h with h | h
      · exact absurd h (by decide)
      · exact (hkWF k hk).2.2 h
  have hlines : pyLines (writeEnvText (some (headerStr name)) m)
      = headerLines name ++ [] ::
          (sortedKeys m).map (fun k => k ++ '=' :: ((lookupA m k).getD [])) := by
    show pyLines ((if headerStr name = [] then [] else headerStr name ++ strL "\n\n") ++ _) = _
    rw [if_neg (headerStr_ne_nil name)]
    have hnn : strL "\n\n" = ['\n', '\n'] := rfl
    have hassoc : (headerStr name ++ strL "\n\n") ++
        ((sortedKeys m).map (fun k => k ++ '=' :: ((lookupA m k).getD []) ++ ['\n'])).flatten
        = headerStr name ++ '\n' :: '\n' ::
            ((sortedKeys m).map (fun k => k ++ '=' :: ((lookupA m k).getD []) ++ ['\n'])).flatten := by
      rw [hnn]
      simp [List.append_assoc]
    have hmaps : (sortedKeys m).map (fun k => k ++ '=' :: ((lookupA m k).getD []) ++ ['\n'])
        = ((sortedKeys m).map (fun k => k ++ '=' :: (lookupA m k).getD [])).map
            (fun e => e ++ ['\n']) := by
      rw [List.map_map]
      refine List.map_congr_left fun k _ => ?_
      simp
    rw [hassoc, pyLines_headerChunk name hname, hmaps,
      pyLines_entryBlock ((sortedKeys m).map (fun k => k ++ '=' :: (lookupA m k).getD []))
        (by
          intro e he
          obtain ⟨k, hk, rfl⟩ := List.mem_map.mp he
          exact hes k hk)]
  rw [hlines]
  unfold readEnvLines
  simp only [headerLines, List.cons_append, List.nil_append]
  rw [readGo_skip_hash (strL "# Environment variables synced from " ++ name) rfl,
    readGo_skip_hash (strL "# Generated by sync-tfvars-to-env.py") rfl,
    readGo_skip_hash (strL "# DO NOT EDIT THIS FILE MANUALLY - Changes will be overwritten") rfl,
    readGo_skip_hash (strL "#") rfl,
    readGo_skip_hash (strL "# To update: make sync-env or run scripts/sync-tfvars-to-env.py") rfl,
    readGo_skip_nil]
  rw [readGo_entryList (sortedKeys m) (fun k => (lookupA m k).getD []) []
    (fun k hk => ⟨(hkWF k hk).1, (hkWF k hk).2.1⟩) (sortedKeys_nodup m hnd)
    (fun k _ => rfl)]
  simp

/-! ### The second-run stability core -/

theorem mergeEnv_lookup (pre : Str) (tf : List (Str × Value)) (k : Str)
    (env : List (Str × Str)) :
    lookupA (mergeEnv pre tf env).1 k =
      (match lastVal pre tf k with
       | some w => some w
       | none => lookupA env k) :=
  mergeGo_lookup pre tf k env 0 0

theorem mergeEnv_nodup (pre : Str) (tf : List (Str × Value)) (env : List (Str × Str))
    (h : NodupKeys env) : NodupKeys (mergeEnv pre tf env).1 :=
  mergeGo_nodup pre tf env 0 0 h

theorem mergeEnv_upd_zero (pre : Str) (tf : List (Str × Value)) (env : List (Str × Str))
    (hnd : (tf.map (fun p => tfKey pre p.1)).Nodup)
    (hall : ∀ p ∈ tf, lookupA env (tfKey pre p.1) = some (formatEnvValue p.2)) :
    (mergeEnv pre tf env).2.1 = 0 :=
  mergeGo_upd pre tf env 0 0 hnd hall

theorem secondRun_core (name pre : Str) (S : List (Str × Value)) (E0 : List (Str × Str))
    (hname : '\n' ∉ name)
    (hkeysS : ∀ p ∈ S, KeyWF (tfKey pre p.1))
    (hfmt : ∀ p ∈ S, ValWF (formatEnvValue p.2))
    (hndS : (S.map (fun p => tfKey pre p.1)).Nodup)
    (hE0 : ∀ p ∈ E0, KeyWF p.1 ∧ ValWF p.2)
    (hE0nd : NodupKeys E0) :
    writeEnvText (some (headerStr name))
        (mergeEnv pre S (readEnvLines (pyLines
          (writeEnvText (some (headerStr name)) (mergeEnv pre S E0).1)))).1
      = writeEnvText (some (headerStr name)) (mergeEnv pre S E0).1 ∧
    (mergeEnv pre S (readEnvLines (pyLines
      (writeEnvText (some (headerStr name)) (mergeEnv pre S E0).1)))).2.1 = 0 := by
  set M1 := (mergeEnv pre S E0).1 with hM1def
  have hM1nd : NodupKeys M1 := mergeEnv_nodup pre S E0 hE0nd
  have hM1keys : ∀ p ∈ M1, KeyWF p.1 := by
    intro p hp
    have hl : lookupA M1 p.1 = some p.2 := lookupA_of_mem hM1nd hp
    rw [hM1def, mergeEnv_lookup] at hl
    cases hlast : lastVal pre S p.1 with
    | some w =>
      obtain ⟨q, hq, hqk, _⟩ := lastVal_mem pre S p.1 w hlast
      exact hqk ▸ hkeysS q hq
    | none =>
      simp only [hlast] at hl
      exact (hE0 _ (mem_of_lookupA hl)).1
  have hM1vals : ∀ p ∈ M1, pyStrip p.2 = p.2 ∧ '\n' ∉ p.2 := by
    intro p hp
    have hl : lookupA M1 p.1 = some p.2 := lookupA_of_mem hM1nd hp
    rw [hM1def, mergeEnv_lookup] at hl
    cases hlast : lastVal pre S p.1 with
    | some w =>
      simp only [hlast] at hl
      have hw : w = p.2 := by simpa using hl
      obtain ⟨q, hq, _, hqw⟩ := lastVal_mem pre S p.1 w hlast
      have hv := hfmt q hq
      rw [← hw, hqw]
      exact ⟨hv.1, hv.2.2⟩
    | none =>
      simp only [hlast] at hl
      have hv := (hE0 _ (mem_of_lookupA hl)).2
      exact ⟨hv.1, hv.2.2⟩
  have hE1 : readEnvLines (pyLines (writeEnvText (some (headerStr name)) M1))
      = (sortedKeys M1).map (fun k => (k, stripQuotes ((lookupA M1 k).getD []))) :=
    readEnv_writeEnv name M1 hname hM1nd hM1keys hM1vals
  set E1 := readEnvLines (pyLines (writeEnvText (some (headerStr name)) M1)) with hE1def
  have hE1look : ∀ k, lookupA E1 k =
      if k ∈ sortedKeys M1 then some (stripQuotes ((lookupA M1 k).getD [])) else none := by
    intro k
    rw [hE1]
    exact lookupA_graph _ _ k
  have hE1nd : NodupKeys E1 := by
    rw [hE1]
    unfold NodupKeys
    rw [keys_graph]
    exact sortedKeys_nodup _ hM1nd
  have hlk : ∀ k, lookupA (mergeEnv pre S E1).1 k = lookupA M1 k := by
    intro k
    rw [mergeEnv_lookup, hM1def, mergeEnv_lookup]
    cases hlast : lastVal pre S k with
    | some w => simp only [hlast]
    | none =>
      simp only [hlast]
      rw [hE1look k]
      by_cases hk : k ∈ sortedKeys M1
      · rw [if_pos hk]
        have hkm : k ∈ M1.map (fun p => p.1) := (sortedKeys_mem _ k).mp hk
        obtain ⟨v, hv⟩ := Option.isSome_iff_exists.mp ((mem_keys_iff_lookupA _ k).mp hkm)
        have hE0v : lookupA E0 k = some v := by
          have h2 := mergeEnv_lookup pre S k E0
          simp only [hlast] at h2
          rw [← h2, ← hM1def]
          exact hv
        rw [hv]
        simp only [Option.getD_some]
        have hq : stripQuotes v = v := ((hE0 _ (mem_of_lookupA hE0v)).2).2.1
        rw [hq, hE0v]
      · rw [if_neg hk]
        have hnone : lookupA M1 k = none := by
          cases h' : lookupA M1 k with
          | none => rfl
          | some v =>
            exact absurd ((sortedKeys_mem _ k).mpr
              ((mem_keys_iff_lookupA _ k).mpr (by rw [h']; rfl))) hk
        have h2 := mergeEnv_lookup pre S k E0
        simp only [hlast] at h2
        rw [← h2, ← hM1def, hnone]
  have hM2nd : NodupKeys (mergeEnv pre S E1).1 := mergeEnv_nodup pre S E1 hE1nd
  constructor
  · exact writeEnvText_ext _ _ _ hM2nd hM1nd (fun k => (hlk k).trans rfl)
  · apply mergeEnv_upd_zero pre S E1 hndS
    intro p hp
    rw [hE1look]
    have hlastp := lastVal_self pre S hndS p hp
    have hlook : lookupA M1 (tfKey pre p.1) = some (formatEnvValue p.2) := by
      rw [hM1def, mergeEnv_lookup]
      simp only [hlastp]
    have hkin : tfKey pre p.1 ∈ sortedKeys M1 :=
      (sortedKeys_mem _ _).mpr ((mem_keys_iff_lookupA _ _).mpr (by rw [hlook]; rfl))
    rw [if_pos hkin, hlook]
    simp only [Option.getD_some]
    rw [(hfmt p hp).2.1]

/-! ### Claim C1: second-run behaviour of sync -/

/-- Claim C1 counterexample: a source whose formatted value is quoted
(`name = "hello world"`) has second-run `updatedCount = 1`, not `0`,
because `read_env_file` strips one layer of quotes while
`format_env_value` re-adds it; the destination bytes are nevertheless
identical on the second run. -/
theorem sync_idempotence_counterexample :
    (match runSync (strL "t") (some (strL "name = \"hello world\"")) none [] false with
     | some r1 =>
       (match runSync (strL "t") (some (strL "name = \"hello world\""))
           (some r1.destText) [] false with
        | some r2 => r2.updatedCount = 1 ∧ r2.destText = r1.destText
        | none => False)
     | none => False) :=
  ⟨rfl, rfl⟩

/-- Claim C1 as amended: with `overwrite=false` and unchanged source input,
the second run writes a destination file byte-identical to the first
run's output, and its `updatedCount` is `0` provided no formatted source
value is quote-wrapped (quoting makes the re-read value differ, which is
what the counterexample exhibits); side conditions require the
transformed source keys and the pre-existing destination entries to be
round-trip clean (single-line, strip-stable, `=`-free non-comment keys;
non-quote-wrapped values) and the transformed source keys to be free of
collisions. -/
theorem sync_second_run_stable (name src pre : Str) (dest : Option Str)
    (hname : '\n' ∉ name)
    (hkeysS : ∀ p ∈ parseTfvars (pyLines src), KeyWF (tfKey pre p.1))
    (hfmt : ∀ p ∈ parseTfvars (pyLines src), ValWF (formatEnvValue p.2))
    (hndS : ((parseTfvars (pyLines src)).map (fun p => tfKey pre p.1)).Nodup)
    (hE0 : ∀ p ∈ readEnvOpt dest, KeyWF p.1 ∧ ValWF p.2)
    (hE0nd : NodupKeys (readEnvOpt dest)) :
    ∃ r1 r2, runSync name (some src) dest pre false = some r1 ∧
      runSync name (some src) (some r1.destText) pre false = some r2 ∧
      r2.destText = r1.destText ∧ r2.updatedCount = 0 := by
  have hcore := secondRun_core name pre (parseTfvars (pyLines src)) (readEnvOpt dest)
    hname hkeysS hfmt hndS hE0 hE0nd
  exact ⟨_, _, rfl, rfl, hcore.1, hcore.2⟩

/-- Witness for the amended C1: a concrete two-key source against a
pre-existing destination holding an unrelated entry. -/
theorem sync_second_run_stable_witness :
    ∃ r1 r2, runSync (strL "t") (some (strL "a = 1\nb = \"x\""))
        (some (strL "C=3\n")) [] false = some r1 ∧
      runSync (strL "t") (some (strL "a = 1\nb = \"x\""))
        (some r1.destText) [] false = some r2 ∧
      r2.destText = r1.destText ∧ r2.updatedCount = 0 :=
  sync_second_run_stable (strL "t") (strL "a = 1\nb = \"x\"") [] (some (strL "C=3\n"))
    (by decide) (by simp only [KeyWF]; decide) (by simp only [ValWF]; decide)
    (by decide) (by simp only [KeyWF, ValWF]; decide)
    (by unfold NodupKeys; decide)

end TfSync
